import Mathlib

/-!
Verification of the CFR Kuhn-poker solver core (src/game.rs, src/solver_tree.rs).

Shallow embedding conventions:
* Rust `f64` (`Floating`) values are modelled as exact rationals `ℚ`.
* Rust panics (`panic!`, `assert!`, `expect`, `unwrap`) are modelled as `none`
  in an `Option` result, or as a dedicated result constructor.
* `HashMap<Move, Floating>` is modelled as a function `Move → Option ℚ`
  (`none` means the key is absent).
* The fixed-size deck `[Card; NUM_CARDS]` is modelled as `Fin 5 → Card`.
-/

/-- Cards of the five-card variant, in the declared (ascending) order. -/
inductive Card where
  | Ten
  | Jack
  | Queen
  | King
  | Ace
deriving DecidableEq

/-- Rank induced by the derived `Ord` in Rust (declaration order). -/
def Card.rank : Card → ℕ
  | .Ten => 0
  | .Jack => 1
  | .Queen => 2
  | .King => 3
  | .Ace => 4

/-- Moves of the betting round. -/
inductive Move where
  | Check
  | Bet
  | Call
  | Raise
  | Fold
deriving DecidableEq

/-- The two players. -/
inductive Player where
  | Player0
  | Player1
deriving DecidableEq

abbrev NUM_CARDS : ℕ := 5

/-- The deck `[Card; NUM_CARDS]`. -/
abbrev Deck := Fin NUM_CARDS → Card

def other_player : Player → Player
  | .Player0 => .Player1
  | .Player1 => .Player0

def get_player_card (p : Player) (deck : Deck) : Card :=
  match p with
  | .Player0 => deck 0
  | .Player1 => deck 1

def winning_player (deck : Deck) : Player :=
  let card0 := get_player_card .Player0 deck
  let card1 := get_player_card .Player1 deck
  if card1.rank < card0.rank then .Player0 else .Player1

/-- Classification of a history (`HistState` in the source). -/
inductive HistState where
  | InProgress
  | DoubleCheck
  | Fold
  | Showdown
deriving DecidableEq

/-- A determinized history: player to move plus the move sequence. -/
structure History where
  player_to_move : Player
  moves : List Move
deriving DecidableEq

def History.len (h : History) : ℕ := h.moves.length

/-- `History::termination_type`. The source panics when the last move is a
Check that is not the second move of a double check; the panic is modelled
as `none`. -/
def History.termination_type (h : History) : Option HistState :=
  let length := h.len
  let moves := h.moves
  if 1 < length then
    let lastM := moves.getD (length - 1) Move.Check
    if lastM = Move.Check then
      if length = 2 ∧ moves.getD 0 Move.Check = Move.Check then
        some HistState.DoubleCheck
      else
        none
    else if lastM = Move.Fold then
      some HistState.Fold
    else if lastM = Move.Call then
      some HistState.Showdown
    else
      some HistState.InProgress
  else
    some HistState.InProgress

/-- `History::next_moves`: the legal next moves. -/
def History.next_moves (h : History) : List Move :=
  let length := h.len
  if 0 < length then
    match h.moves.getD (length - 1) Move.Check with
    | .Check => [Move.Check, Move.Bet]
    | .Bet => [Move.Call, Move.Raise, Move.Fold]
    | .Call => []
    | .Raise => [Move.Call, Move.Fold]
    | .Fold => []
  else
    [Move.Check, Move.Bet]

/-- A history carrying, per move, the pair of running products of each
player's own move-selection probabilities. -/
structure ChancyHistory where
  player_to_move : Player
  moves_and_counterfactual_reach_probs : List ((ℚ × ℚ) × Move)
deriving DecidableEq

def ChancyHistory.new : ChancyHistory :=
  { player_to_move := .Player0
    moves_and_counterfactual_reach_probs := [] }

/-- `ChancyHistory::determinize`: strip the probabilities out. -/
def ChancyHistory.determinize (c : ChancyHistory) : History :=
  { player_to_move := c.player_to_move
    moves := c.moves_and_counterfactual_reach_probs.map (fun e => e.2) }

def ChancyHistory.len (c : ChancyHistory) : ℕ :=
  c.moves_and_counterfactual_reach_probs.length

/-- An information set: the acting player's private card plus the history. -/
structure InfoSet where
  card : Card
  history : History
deriving DecidableEq

/-- `ChancyHistory::to_info_set`. -/
def ChancyHistory.to_info_set (c : ChancyHistory) (deck : Deck) : InfoSet :=
  let history := c.determinize
  let card := get_player_card c.player_to_move deck
  { card := card, history := history }

/-- `ChancyHistory::is_terminal`. `none` models the panic inherited from
`termination_type`. -/
def ChancyHistory.is_terminal (c : ChancyHistory) : Option Bool :=
  match c.determinize.termination_type with
  | none => none
  | some s => some (s ≠ HistState.InProgress)

/-- `ChancyHistory::util_if_terminal`. The outer `Option` models the panic
inherited from `termination_type`; the inner one is the source's
`Option<Floating>` (`none` = not terminal). -/
def ChancyHistory.util_if_terminal (c : ChancyHistory) (deck : Deck) :
    Option (Option ℚ) :=
  let current_player_winning := winning_player deck = c.player_to_move
  let has_raise := Move.Raise ∈ c.determinize.moves
  match c.determinize.termination_type with
  | none => none
  | some HistState.InProgress => some none
  | some HistState.DoubleCheck =>
      some (some (if current_player_winning then 1 else -1))
  | some HistState.Fold =>
      some (some (if has_raise then 2 else 1))
  | some HistState.Showdown =>
      some (some ((if has_raise then 3 else 2) *
        (if current_player_winning then 1 else -1)))

/-- Result of `ChancyHistory::extend`: `illegalMove` is the source's `None`,
`panicked` models the failed `assert!`, `ok` is the source's `Some`. -/
inductive ExtRes where
  | illegalMove
  | panicked
  | ok (c : ChancyHistory)
deriving DecidableEq

/-- `ChancyHistory::extend`. -/
def ChancyHistory.extend (c : ChancyHistory) (m : Move) (prob : ℚ) : ExtRes :=
  let new_player := other_player c.player_to_move
  let legal_moves := c.determinize.next_moves
  if m ∉ legal_moves then
    ExtRes.illegalMove
  else
    let length := c.len
    if length = 0 then
      if c.player_to_move = Player.Player0 then
        ExtRes.ok
          { player_to_move := new_player
            moves_and_counterfactual_reach_probs :=
              c.moves_and_counterfactual_reach_probs ++ [((prob, 1), m)] }
      else
        ExtRes.panicked
    else
      let pr :=
        (c.moves_and_counterfactual_reach_probs.getD (length - 1)
          ((1, 1), Move.Check)).1
      let counterfac_probs :=
        match c.player_to_move with
        | .Player0 => (pr.1 * prob, pr.2)
        | .Player1 => (pr.1, pr.2 * prob)
      ExtRes.ok
        { player_to_move := new_player
          moves_and_counterfactual_reach_probs :=
            c.moves_and_counterfactual_reach_probs ++ [(counterfac_probs, m)] }

/-- The running-probability pair carried at the end of a chancy history
(`(1, 1)` at the empty root). -/
def ChancyHistory.coords (c : ChancyHistory) : ℚ × ℚ :=
  if c.len = 0 then (1, 1)
  else
    (c.moves_and_counterfactual_reach_probs.getD (c.len - 1)
      ((1, 1), Move.Check)).1

/-- `ChancyHistory::get_reach_prob`. -/
def ChancyHistory.get_reach_prob (c : ChancyHistory) : ℚ :=
  let length := c.len
  if length = 0 then 1
  else
    let pr :=
      (c.moves_and_counterfactual_reach_probs.getD (length - 1)
        ((1, 1), Move.Check)).1
    pr.1 * pr.2

/-- `ChancyHistory::get_counterfactual_reach_prob`. -/
def ChancyHistory.get_counterfactual_reach_prob (c : ChancyHistory) : ℚ :=
  let length := c.len
  if length = 0 then 1
  else
    let pr :=
      (c.moves_and_counterfactual_reach_probs.getD (length - 1)
        ((1, 1), Move.Check)).1
    match c.player_to_move with
    | .Player0 => pr.2
    | .Player1 => pr.1

/-- Chancy histories constructible by the public API: `new` followed by
successful `extend` calls. -/
inductive ReachableCh : ChancyHistory → Prop where
  | root : ReachableCh ChancyHistory.new
  | step {c : ChancyHistory} {m : Move} {p : ℚ} {c2 : ChancyHistory} :
      ReachableCh c → c.extend m p = ExtRes.ok c2 → ReachableCh c2

/-- Chancy histories built from the root, recording the list of per-step
probabilities passed to `extend`. -/
inductive BuiltBy : ChancyHistory → List ℚ → Prop where
  | root : BuiltBy ChancyHistory.new []
  | step {c : ChancyHistory} {ps : List ℚ} {m : Move} {p : ℚ}
      {c2 : ChancyHistory} :
      BuiltBy c ps → c.extend m p = ExtRes.ok c2 → BuiltBy c2 (ps ++ [p])

/-- Chancy histories built from the root, recording separately the
probabilities supplied on Player0's moves and on Player1's moves. -/
inductive BuiltBy2 : ChancyHistory → List ℚ → List ℚ → Prop where
  | root : BuiltBy2 ChancyHistory.new [] []
  | step0 {c : ChancyHistory} {qs0 qs1 : List ℚ} {m : Move} {p : ℚ}
      {c2 : ChancyHistory} :
      BuiltBy2 c qs0 qs1 → c.player_to_move = Player.Player0 →
      c.extend m p = ExtRes.ok c2 → BuiltBy2 c2 (qs0 ++ [p]) qs1
  | step1 {c : ChancyHistory} {qs0 qs1 : List ℚ} {m : Move} {p : ℚ}
      {c2 : ChancyHistory} :
      BuiltBy2 c qs0 qs1 → c.player_to_move = Player.Player1 →
      c.extend m p = ExtRes.ok c2 → BuiltBy2 c2 qs0 (qs1 ++ [p])

/-- Point update of a `Move`-keyed map (`HashMap::insert`). -/
def insertM (f : Move → Option ℚ) (m : Move) (v : ℚ) : Move → Option ℚ :=
  fun x => if x = m then some v else f x

/-- `new_move_to_float_map_zeros`. -/
def new_move_to_float_map_zeros (legal_moves : List Move) : Move → Option ℚ :=
  legal_moves.foldl (fun map m => insertM map m 0) (fun _ => none)

/-- `new_move_to_float_map_probs`. -/
def new_move_to_float_map_probs (legal_moves : List Move) : Move → Option ℚ :=
  let num_moves := legal_moves.length
  legal_moves.foldl (fun map m => insertM map m (1 / (num_moves : ℚ)))
    (fun _ => none)

/-- Per-information-set learning state (`NodeInfo`). -/
structure NodeInfo where
  regret_sum : Move → Option ℚ
  strategy : Move → Option ℚ
  strategy_sum : Move → Option ℚ

/-- `NodeInfo::new`. -/
def NodeInfo.new (legal_moves : List Move) : NodeInfo :=
  { regret_sum := new_move_to_float_map_zeros legal_moves
    strategy := new_move_to_float_map_probs legal_moves
    strategy_sum := new_move_to_float_map_zeros legal_moves }

/-- `NodeInfo::update_regret`; `none` models the panic of `expect` when the
move has no entry in the regret table. -/
def NodeInfo.update_regret (ni : NodeInfo) (m : Move) (r : ℚ) :
    Option NodeInfo :=
  match ni.regret_sum m with
  | none => none
  | some cur =>
      some { ni with regret_sum := insertM ni.regret_sum m (cur + r) }

/-- First loop of `NodeInfo::update_strategy`: writes each legal move's
positive regret part into the strategy table and accumulates their sum. -/
def usLoop1 (regret_sum : Move → Option ℚ) (strategy : Move → Option ℚ)
    (normalizing_sum : ℚ) : List Move → (Move → Option ℚ) × ℚ
  | [] => (strategy, normalizing_sum)
  | m :: rest =>
      let r := (regret_sum m).getD 0
      let r_pos := if 0 < r then r else 0
      usLoop1 regret_sum (insertM strategy m r_pos) (normalizing_sum + r_pos)
        rest

/-- Second loop of `NodeInfo::update_strategy`: normalizes (or falls back to
uniform) and accumulates the cumulative strategy. `none` models the panic of
the source's `unwrap` on a missing strategy entry. -/
def usLoop2 (strategy : Move → Option ℚ) (strategy_sum : Move → Option ℚ)
    (normalizing_sum : ℚ) (realization_weight : ℚ) (num_moves : ℕ) :
    List Move → Option ((Move → Option ℚ) × (Move → Option ℚ))
  | [] => some (strategy, strategy_sum)
  | m :: rest =>
      let strat_opt : Option ℚ :=
        if 0 < normalizing_sum then (strategy m).map (fun s => s / normalizing_sum)
        else some (1 / (num_moves : ℚ))
      match strat_opt with
      | none => none
      | some strat_m =>
          let sum_update := realization_weight * strat_m
          usLoop2 (insertM strategy m strat_m)
            (fun x =>
              if x = m then some ((strategy_sum m).getD 0 + sum_update)
              else strategy_sum x)
            normalizing_sum realization_weight num_moves rest

/-- `NodeInfo::update_strategy` (regret matching); `none` models a panic. -/
def NodeInfo.update_strategy (ni : NodeInfo) (legal_moves : List Move)
    (realization_weight : ℚ) : Option NodeInfo :=
  let res1 := usLoop1 ni.regret_sum ni.strategy 0 legal_moves
  match usLoop2 res1.1 ni.strategy_sum res1.2 realization_weight
    legal_moves.length legal_moves with
  | none => none
  | some (strat2, ssum2) =>
      some { regret_sum := ni.regret_sum, strategy := strat2,
             strategy_sum := ssum2 }

/-- The positive part of the accumulated regret of a move. -/
def posRegret (ni : NodeInfo) (m : Move) : ℚ :=
  let r := (ni.regret_sum m).getD 0
  if 0 < r then r else 0

/-- The normalizing sum of positive regret parts over the legal moves. -/
def normRegret (ni : NodeInfo) (legal_moves : List Move) : ℚ :=
  (legal_moves.map (posRegret ni)).sum

/-- The strategy produced by one regret-matching step. -/
def matchedStrat (ni : NodeInfo) (legal_moves : List Move) (m : Move) : ℚ :=
  if 0 < normRegret ni legal_moves then
    posRegret ni m / normRegret ni legal_moves
  else 1 / (legal_moves.length : ℚ)

/-- One call against a `NodeInfo`: either `update_regret` or
`update_strategy` with a given realization weight. -/
inductive NodeOp where
  | reg (m : Move) (r : ℚ)
  | strat (w : ℚ)

/-- Apply one call (the legal-move list is fixed throughout). -/
def applyOp (legal_moves : List Move) (ni : NodeInfo) : NodeOp → Option NodeInfo
  | .reg m r => ni.update_regret m r
  | .strat w => ni.update_strategy legal_moves w

/-- Apply a sequence of calls; `none` models a panic somewhere along it. -/
def applyOps (legal_moves : List Move) (ni : NodeInfo) :
    List NodeOp → Option NodeInfo
  | [] => some ni
  | op :: rest =>
      match applyOp legal_moves ni op with
      | none => none
      | some ni2 => applyOps legal_moves ni2 rest

/-- `f` is a probability distribution over exactly the moves of
`legal_moves`. -/
def IsDistOver (f : Move → Option ℚ) (legal_moves : List Move) : Prop :=
  (∀ m, (f m).isSome = true ↔ m ∈ legal_moves) ∧
  (∀ m ∈ legal_moves, 0 ≤ (f m).getD 0) ∧
  (legal_moves.map (fun m => (f m).getD 0)).sum = 1

/-- Last element of a list extended by one, by index. -/
theorem getD_append_length {α : Type} (l : List α) (a d : α) :
    (l ++ [a]).getD l.length d = a := by
  induction l with
  | nil => rfl
  | cons x xs ih => simp only [List.cons_append, List.length_cons, List.getD_cons_succ]; exact ih

/-- The running-probability pair after one `extend` step: only the acting
player's own coordinate is multiplied by the supplied probability. -/
def newCoords (c : ChancyHistory) (p : ℚ) : ℚ × ℚ :=
  match c.player_to_move with
  | .Player0 => ((c.coords).1 * p, (c.coords).2)
  | .Player1 => ((c.coords).1, (c.coords).2 * p)

/-- A successful `extend` flips the player to move and appends the updated
probability pair together with the move. -/
theorem extend_ok {c : ChancyHistory} {m : Move} {p : ℚ} {c2 : ChancyHistory}
    (h : c.extend m p = ExtRes.ok c2) :
    c2.player_to_move = other_player c.player_to_move ∧
    c2.moves_and_counterfactual_reach_probs =
      c.moves_and_counterfactual_reach_probs ++ [(newCoords c p, m)] := by
  simp only [ChancyHistory.extend] at h
  split at h
  · simp at h
  · split at h
    · split at h
      · injection h with h2
        subst h2
        refine ⟨rfl, ?_⟩
        simp_all [newCoords, ChancyHistory.coords]
      · simp at h
    · injection h with h2
      subst h2
      refine ⟨rfl, ?_⟩
      cases hcp : c.player_to_move <;>
        simp_all [newCoords, ChancyHistory.coords]

theorem len_of_ok {c : ChancyHistory} {m : Move} {p : ℚ} {c2 : ChancyHistory}
    (h : c.extend m p = ExtRes.ok c2) : c2.len = c.len + 1 := by
  obtain ⟨-, hl⟩ := extend_ok h
  simp [ChancyHistory.len, hl]

theorem coords_of_ok {c : ChancyHistory} {m : Move} {p : ℚ}
    {c2 : ChancyHistory} (h : c.extend m p = ExtRes.ok c2) :
    c2.coords = newCoords c p := by
  obtain ⟨-, hl⟩ := extend_ok h
  have hlen := len_of_ok h
  unfold ChancyHistory.coords
  rw [if_neg (by omega)]
  simp [ChancyHistory.len, hl, hlen, ChancyHistory.len.eq_1, getD_append_length]

theorem coords_new : ChancyHistory.new.coords = (1, 1) := rfl

theorem get_reach_prob_eq_coords (c : ChancyHistory) :
    c.get_reach_prob = (c.coords).1 * (c.coords).2 := by
  unfold ChancyHistory.get_reach_prob ChancyHistory.coords
  by_cases h : c.len = 0 <;> simp [h]

theorem get_cf_prob_eq_coords (c : ChancyHistory) :
    c.get_counterfactual_reach_prob =
      (match c.player_to_move with
       | .Player0 => (c.coords).2
       | .Player1 => (c.coords).1) := by
  unfold ChancyHistory.get_counterfactual_reach_prob ChancyHistory.coords
  by_cases h : c.len = 0
  · cases hcp : c.player_to_move <;> simp [h]
  · cases hcp : c.player_to_move <;> simp [h]

theorem builtBy_coords_prod {c : ChancyHistory} {ps : List ℚ}
    (h : BuiltBy c ps) : (c.coords).1 * (c.coords).2 = ps.prod := by
  induction h with
  | root => simp [coords_new]
  | step hb hx ih =>
      rw [coords_of_ok hx]
      unfold newCoords
      rename_i c ps m p c2
      cases hcp : c.player_to_move <;>
        simp only [hcp, List.prod_append, List.prod_cons, List.prod_nil] <;>
        rw [← ih] <;> ring

theorem builtBy2_coords {c : ChancyHistory} {qs0 qs1 : List ℚ}
    (h : BuiltBy2 c qs0 qs1) : c.coords = (qs0.prod, qs1.prod) := by
  induction h with
  | root => simp [coords_new]
  | step0 hb hp0 hx ih =>
      rw [coords_of_ok hx]
      unfold newCoords
      simp [hp0, ih, List.prod_append]
  | step1 hb hp1 hx ih =>
      rw [coords_of_ok hx]
      unfold newCoords
      simp [hp1, ih, List.prod_append]

/-- Concrete history: root extended by Check with probability 4/5. -/
def chC : ChancyHistory :=
  { player_to_move := .Player1
    moves_and_counterfactual_reach_probs := [((4/5, 1), .Check)] }

/-- Concrete history: `chC` extended by Bet with probability 7/10. -/
def chCB : ChancyHistory :=
  { player_to_move := .Player0
    moves_and_counterfactual_reach_probs :=
      [((4/5, 1), .Check), ((4/5, 7/10), .Bet)] }

/-- Variant of `chC` with a different probability on Player0's move. -/
def chC2 : ChancyHistory :=
  { player_to_move := .Player1
    moves_and_counterfactual_reach_probs := [((1/2, 1), .Check)] }

/-- Variant of `chCB` with a different probability on Player0's move. -/
def chCB2 : ChancyHistory :=
  { player_to_move := .Player0
    moves_and_counterfactual_reach_probs :=
      [((1/2, 1), .Check), ((1/2, 7/10), .Bet)] }

theorem extend_root_check :
    ChancyHistory.new.extend Move.Check (4/5) = ExtRes.ok chC := by
  norm_num [ChancyHistory.extend, ChancyHistory.new, chC,
    ChancyHistory.determinize, History.next_moves, ChancyHistory.len,
    other_player]

theorem extend_chC_bet :
    chC.extend Move.Bet (7/10) = ExtRes.ok chCB := by
  norm_num [ChancyHistory.extend, chC, chCB, ChancyHistory.determinize,
    History.next_moves, ChancyHistory.len, other_player]

theorem extend_root_check2 :
    ChancyHistory.new.extend Move.Check (1/2) = ExtRes.ok chC2 := by
  norm_num [ChancyHistory.extend, ChancyHistory.new, chC2,
    ChancyHistory.determinize, History.next_moves, ChancyHistory.len,
    other_player]

theorem extend_chC2_bet :
    chC2.extend Move.Bet (7/10) = ExtRes.ok chCB2 := by
  norm_num [ChancyHistory.extend, chC2, chCB2, ChancyHistory.determinize,
    History.next_moves, ChancyHistory.len, other_player]

/-- C5: a successful `extend` differs from its argument only by appending
the move, flipping the player to move, and multiplying the acting player's
own running-probability coordinate by the supplied probability; the other
player's coordinate is carried over unchanged. -/
theorem extend_updates_only_actor_coord :
    ∀ (c : ChancyHistory) (m : Move) (p : ℚ) (c2 : ChancyHistory),
      c.extend m p = ExtRes.ok c2 →
      c2.player_to_move = other_player c.player_to_move ∧
      c2.determinize.moves = c.determinize.moves ++ [m] ∧
      c2.moves_and_counterfactual_reach_probs =
        c.moves_and_counterfactual_reach_probs ++ [(newCoords c p, m)] ∧
      c2.coords = newCoords c p := by
  intro c m p c2 h
  obtain ⟨h1, h2⟩ := extend_ok h
  refine ⟨h1, ?_, h2, coords_of_ok h⟩
  simp [ChancyHistory.determinize, h2]

/-- Closed instance of the C5 theorem at the root extended by Check. -/
theorem extend_updates_only_actor_coord_witness :
    chC.player_to_move = other_player ChancyHistory.new.player_to_move ∧
    chC.determinize.moves =
      ChancyHistory.new.determinize.moves ++ [Move.Check] ∧
    chC.moves_and_counterfactual_reach_probs =
      ChancyHistory.new.moves_and_counterfactual_reach_probs ++
        [(newCoords ChancyHistory.new (4/5), Move.Check)] ∧
    chC.coords = newCoords ChancyHistory.new (4/5) :=
  extend_updates_only_actor_coord ChancyHistory.new Move.Check (4/5) chC
    extend_root_check

/-- C6: the root's reach probability is exactly 1, and the reach
probability of any history built by successful `extend` calls equals the
product of the per-step chosen-move probabilities. -/
theorem reach_prob_eq_prod_of_probs :
    ChancyHistory.new.get_reach_prob = 1 ∧
    ∀ (c : ChancyHistory) (ps : List ℚ), BuiltBy c ps →
      c.get_reach_prob = ps.prod := by
  refine ⟨rfl, ?_⟩
  intro c ps h
  rw [get_reach_prob_eq_coords, builtBy_coords_prod h]

/-- Closed instance of the C6 theorem on a two-step history. -/
theorem reach_prob_eq_prod_of_probs_witness :
    chCB.get_reach_prob = ([4/5, 7/10] : List ℚ).prod :=
  reach_prob_eq_prod_of_probs.2 chCB [4/5, 7/10]
    (BuiltBy.step (BuiltBy.step BuiltBy.root extend_root_check)
      extend_chC_bet)

theorem cf_prob_eq_opponent_prod {c : ChancyHistory} {qs0 qs1 : List ℚ}
    (h : BuiltBy2 c qs0 qs1) :
    c.get_counterfactual_reach_prob =
      (match c.player_to_move with
       | .Player0 => qs1.prod
       | .Player1 => qs0.prod) := by
  rw [get_cf_prob_eq_coords, builtBy2_coords h]

/-- C7: the counterfactual reach probability equals the product of only the
probabilities supplied on the moves of the opponent of the player to move,
and is independent of the acting player's own supplied probabilities. -/
theorem counterfactual_reach_prob_opponent_only :
    (∀ (c : ChancyHistory) (qs0 qs1 : List ℚ), BuiltBy2 c qs0 qs1 →
      c.get_counterfactual_reach_prob =
        (match c.player_to_move with
         | .Player0 => qs1.prod
         | .Player1 => qs0.prod)) ∧
    (∀ (c c2 : ChancyHistory) (qs0 qs1 qt0 qt1 : List ℚ),
      BuiltBy2 c qs0 qs1 → BuiltBy2 c2 qt0 qt1 →
      c.player_to_move = c2.player_to_move →
      (c.player_to_move = Player.Player0 → qs1 = qt1) →
      (c.player_to_move = Player.Player1 → qs0 = qt0) →
      c.get_counterfactual_reach_prob = c2.get_counterfactual_reach_prob) := by
  refine ⟨fun c qs0 qs1 h => cf_prob_eq_opponent_prod h, ?_⟩
  intro c c2 qs0 qs1 qt0 qt1 h h2 hpl h0 h1
  rw [cf_prob_eq_opponent_prod h, cf_prob_eq_opponent_prod h2, ← hpl]
  cases hcp : c.player_to_move
  · simp [h0 hcp]
  · simp [h1 hcp]

/-- Closed instance of the C7 theorem: two runs differing only in the
acting player's own probabilities have equal counterfactual reach
probabilities. -/
theorem counterfactual_reach_prob_opponent_only_witness :
    chCB.get_counterfactual_reach_prob =
      chCB2.get_counterfactual_reach_prob :=
  counterfactual_reach_prob_opponent_only.2 chCB chCB2
    [4/5] [7/10] [1/2] [7/10]
    (BuiltBy2.step1 (BuiltBy2.step0 BuiltBy2.root rfl extend_root_check)
      rfl extend_chC_bet)
    (BuiltBy2.step1 (BuiltBy2.step0 BuiltBy2.root rfl extend_root_check2)
      rfl extend_chC2_bet)
    rfl (fun _ => rfl) (fun hh => Player.noConfusion hh)

/-- A concrete deck of five distinct cards: Player0 holds Ten, Player1 Ace. -/
def deckTA : Deck := fun i =>
  if i.val = 0 then Card.Ten
  else if i.val = 1 then Card.Ace
  else if i.val = 2 then Card.Jack
  else if i.val = 3 then Card.Queen
  else Card.King

/-- A deck agreeing with `deckTA` on Player1's card but not on Player0's. -/
def deckQA : Deck := fun i =>
  if i.val = 0 then Card.Queen
  else if i.val = 1 then Card.Ace
  else if i.val = 2 then Card.Jack
  else if i.val = 3 then Card.Ten
  else Card.King

/-- C8: the information set depends only on the determinized history and
the acting player's own card; differing reach-probability annotations and
the opponent's hidden card are irrelevant. -/
theorem to_info_set_depends_only_on_history_and_own_card :
    ∀ (c1 c2 : ChancyHistory) (d1 d2 : Deck),
      c1.determinize = c2.determinize →
      get_player_card c1.player_to_move d1 =
        get_player_card c2.player_to_move d2 →
      c1.to_info_set d1 = c2.to_info_set d2 := by
  intro c1 c2 d1 d2 hh hc
  unfold ChancyHistory.to_info_set
  simp only [hh, hc]

/-- Closed instance of the C8 theorem: same moves and same private card for
the player to move, different probabilities and different opponent card. -/
theorem to_info_set_depends_only_on_history_and_own_card_witness :
    chC.to_info_set deckTA = chC2.to_info_set deckQA :=
  to_info_set_depends_only_on_history_and_own_card chC chC2 deckTA deckQA
    (by decide) (by decide)

/-- The legal next moves are a function of the last move of the history. -/
theorem next_moves_concat (pl : Player) (ms : List Move) (mv : Move) :
    (History.mk pl (ms ++ [mv])).next_moves =
      (match mv with
       | .Check => [Move.Check, Move.Bet]
       | .Bet => [Move.Call, Move.Raise, Move.Fold]
       | .Call => []
       | .Raise => [Move.Call, Move.Fold]
       | .Fold => []) := by
  simp only [History.next_moves, History.len, List.length_append,
    List.length_cons, List.length_nil]
  rw [if_pos (by omega)]
  have : ms.length + 1 - 1 = ms.length := by omega
  rw [this]
  rw [getD_append_length]

theorem reachable_root_player {c : ChancyHistory} (h : ReachableCh c) :
    c.len = 0 → c.player_to_move = Player.Player0 := by
  induction h with
  | root => intro _; rfl
  | step hb hx ih =>
      intro hlen
      have := len_of_ok hx
      omega

/-- C4: for every reachable chancy history, `extend` returns the illegal
sentinel exactly when the move is not among the legal next moves, and never
panics; and the legal next-move sets are those of the betting-round rules. -/
theorem extend_illegal_iff_not_next_move :
    (∀ (c : ChancyHistory) (m : Move) (p : ℚ), ReachableCh c →
      (c.extend m p = ExtRes.illegalMove ↔
        m ∉ c.determinize.next_moves) ∧
      c.extend m p ≠ ExtRes.panicked) ∧
    (∀ pl : Player, (History.mk pl []).next_moves =
      [Move.Check, Move.Bet]) ∧
    (∀ (pl : Player) (ms : List Move),
      (History.mk pl (ms ++ [Move.Check])).next_moves =
        [Move.Check, Move.Bet]) ∧
    (∀ (pl : Player) (ms : List Move),
      (History.mk pl (ms ++ [Move.Bet])).next_moves =
        [Move.Call, Move.Raise, Move.Fold]) ∧
    (∀ (pl : Player) (ms : List Move),
      (History.mk pl (ms ++ [Move.Raise])).next_moves =
        [Move.Call, Move.Fold]) ∧
    (∀ (pl : Player) (ms : List Move),
      (History.mk pl (ms ++ [Move.Call])).next_moves = []) ∧
    (∀ (pl : Player) (ms : List Move),
      (History.mk pl (ms ++ [Move.Fold])).next_moves = []) := by
  refine ⟨?_, fun pl => rfl,
    fun pl ms => next_moves_concat pl ms Move.Check,
    fun pl ms => next_moves_concat pl ms Move.Bet,
    fun pl ms => next_moves_concat pl ms Move.Raise,
    fun pl ms => next_moves_concat pl ms Move.Call,
    fun pl ms => next_moves_concat pl ms Move.Fold⟩
  intro c m p hr
  by_cases hm : m ∈ c.determinize.next_moves
  · by_cases hl : c.len = 0
    · have hp := reachable_root_player hr hl
      exact ⟨by simp [ChancyHistory.extend, hm, hl, hp],
        by simp [ChancyHistory.extend, hm, hl, hp]⟩
    · exact ⟨by simp [ChancyHistory.extend, hm, hl],
        by simp [ChancyHistory.extend, hm, hl]⟩
  · exact ⟨by simp [ChancyHistory.extend, hm],
      by simp [ChancyHistory.extend, hm]⟩

/-- Closed instance of the C4 theorem at the root with the illegal move
Call. -/
theorem extend_illegal_iff_not_next_move_witness :
    (ChancyHistory.new.extend Move.Call 1 = ExtRes.illegalMove ↔
      Move.Call ∉ ChancyHistory.new.determinize.next_moves) ∧
    ChancyHistory.new.extend Move.Call 1 ≠ ExtRes.panicked :=
  extend_illegal_iff_not_next_move.1 ChancyHistory.new Move.Call 1
    ReachableCh.root

/-- C3 counterexample: on the history [Bet, Check] the source's
`termination_type` panics (modelled as `none`) instead of classifying, so
the classification is not total over all histories. -/
theorem termination_type_panics_on_bet_check :
    (History.mk Player.Player0 [Move.Bet, Move.Check]).termination_type =
      none := by
  rfl

/-- C3 (amended): on every history whose trailing Check is legal (a last
move of Check with more than one move implies exactly the two-move double
check), `termination_type` totally classifies the history into exactly one
of the four states without panicking: length at most 1 gives InProgress,
[Check, Check] gives DoubleCheck, a last move of Fold gives Fold, and a
last move of Call gives Showdown. -/
theorem termination_type_totally_classifies :
    ∀ h : History,
      (1 < h.moves.length →
        h.moves.getD (h.moves.length - 1) Move.Check = Move.Check →
        h.moves.length = 2 ∧ h.moves.getD 0 Move.Check = Move.Check) →
      ∃ s : HistState, h.termination_type = some s ∧
        (h.moves.length ≤ 1 → s = HistState.InProgress) ∧
        (h.moves = [Move.Check, Move.Check] → s = HistState.DoubleCheck) ∧
        (1 < h.moves.length →
          h.moves.getD (h.moves.length - 1) Move.Check = Move.Fold →
          s = HistState.Fold) ∧
        (1 < h.moves.length →
          h.moves.getD (h.moves.length - 1) Move.Check = Move.Call →
          s = HistState.Showdown) := by
  intro h hc
  unfold History.termination_type History.len
  by_cases h1 : 1 < h.moves.length
  · rw [if_pos h1]
    by_cases h2 : h.moves.getD (h.moves.length - 1) Move.Check = Move.Check
    · rw [if_pos h2, if_pos (hc h1 h2)]
      refine ⟨HistState.DoubleCheck, rfl, by omega, fun _ => rfl,
        fun _ hf => Move.noConfusion (h2.symm.trans hf),
        fun _ hcall => Move.noConfusion (h2.symm.trans hcall)⟩
    · rw [if_neg h2]
      by_cases h3 : h.moves.getD (h.moves.length - 1) Move.Check = Move.Fold
      · rw [if_pos h3]
        refine ⟨HistState.Fold, rfl, by omega, ?_, fun _ _ => rfl,
          fun _ hcall => Move.noConfusion (h3.symm.trans hcall)⟩
        intro hm
        exact absurd (by rw [hm]; rfl) h2
      · rw [if_neg h3]
        by_cases h4 : h.moves.getD (h.moves.length - 1) Move.Check = Move.Call
        · rw [if_pos h4]
          refine ⟨HistState.Showdown, rfl, by omega, ?_,
            fun _ hf => absurd hf h3, fun _ _ => rfl⟩
          intro hm
          exact absurd (by rw [hm]; rfl) h2
        · rw [if_neg h4]
          refine ⟨HistState.InProgress, rfl, fun _ => rfl, ?_,
            fun _ hf => absurd hf h3, fun _ hcall => absurd hcall h4⟩
          intro hm
          exact absurd (by rw [hm]; rfl) h2
  · rw [if_neg h1]
    refine ⟨HistState.InProgress, rfl, fun _ => rfl, ?_,
      fun hl _ => absurd hl h1, fun hl _ => absurd hl h1⟩
    intro hm
    exact absurd (by rw [hm]; norm_num) h1

/-- Closed instance of the amended C3 theorem on the double-check history. -/
theorem termination_type_totally_classifies_witness :
    (History.mk Player.Player0 [Move.Check, Move.Check]).termination_type =
      some HistState.DoubleCheck := by
  obtain ⟨s, hs, _, hdc, _, _⟩ :=
    termination_type_totally_classifies
      (History.mk Player.Player0 [Move.Check, Move.Check])
      (fun _ _ => ⟨rfl, rfl⟩)
  rw [hs, hdc rfl]

theorem card_rank_asymm :
    ∀ a b : Card, a ≠ b → (a.rank < b.rank ↔ ¬ b.rank < a.rank) := by
  intro a b
  cases a <;> cases b <;> decide

theorem deck_cards_ne {deck : Deck} (hinj : Function.Injective deck) :
    deck 0 ≠ deck 1 := by
  intro h
  exact absurd (hinj h) (by decide)

/-- The winner of the showdown is the player holding the higher card, as
long as the two dealt cards differ. -/
theorem winning_iff {deck : Deck} (hne : deck 0 ≠ deck 1) (p : Player) :
    winning_player deck = p ↔
      (get_player_card (other_player p) deck).rank <
        (get_player_card p deck).rank := by
  cases p
  · unfold winning_player get_player_card other_player
    by_cases hlt : (deck 1).rank < (deck 0).rank <;> simp [hlt]
  · unfold winning_player get_player_card other_player
    by_cases hlt : (deck 1).rank < (deck 0).rank <;> simp [hlt]
    · omega
    · exact (card_rank_asymm (deck 0) (deck 1) hne).mpr hlt

/-- Concrete terminal history [Check, Check] (Player0 back to move). -/
def chCC : ChancyHistory :=
  { player_to_move := .Player0
    moves_and_counterfactual_reach_probs :=
      [((1, 1), .Check), ((1, 1), .Check)] }

/-- Concrete terminal history [Check, Bet, Call] (Player1 to move). -/
def chCBC : ChancyHistory :=
  { player_to_move := .Player1
    moves_and_counterfactual_reach_probs :=
      [((1, 1), .Check), ((1, 1), .Bet), ((1, 1), .Call)] }

/-- Concrete terminal history [Bet, Fold] (Player0 back to move). -/
def chBF : ChancyHistory :=
  { player_to_move := .Player0
    moves_and_counterfactual_reach_probs :=
      [((1, 1), .Bet), ((1, 1), .Fold)] }

/-- Concrete terminal history [Bet, Raise, Fold] (Player1 to move). -/
def chBRF : ChancyHistory :=
  { player_to_move := .Player1
    moves_and_counterfactual_reach_probs :=
      [((1, 1), .Bet), ((1, 1), .Raise), ((1, 1), .Fold)] }

/-- C2: terminal payoffs are from the perspective of the player to move: a
double-check showdown pays plus or minus 1 by who holds the higher card, a
fold pays a positive fixed amount to the player to move regardless of the
cards, and a showdown after betting pays a fixed amount larger than 1,
positive exactly when the player to move holds the higher card; concretely
[Check, Check] losing pays -1, [Check, Bet, Call] winning pays 2, and
[Bet, Fold] pays 1 on every deck. -/
theorem util_if_terminal_payoffs :
    (∀ (c : ChancyHistory) (deck : Deck), Function.Injective deck →
      c.determinize.termination_type = some HistState.DoubleCheck →
      c.util_if_terminal deck = some (some
        (if (get_player_card (other_player c.player_to_move) deck).rank <
            (get_player_card c.player_to_move deck).rank then 1 else -1))) ∧
    (∀ c : ChancyHistory,
      c.determinize.termination_type = some HistState.Fold →
      ∃ a : ℚ, 0 < a ∧
        ∀ deck : Deck, c.util_if_terminal deck = some (some a)) ∧
    (∀ c : ChancyHistory,
      c.determinize.termination_type = some HistState.Showdown →
      ∃ a : ℚ, 1 < a ∧
        ∀ deck : Deck, Function.Injective deck →
          c.util_if_terminal deck = some (some
            (if (get_player_card (other_player c.player_to_move) deck).rank <
                (get_player_card c.player_to_move deck).rank
             then a else -a))) ∧
    chCC.util_if_terminal deckTA = some (some (-1)) ∧
    chCBC.util_if_terminal deckTA = some (some 2) ∧
    (∀ deck : Deck, chBF.util_if_terminal deck = some (some 1)) := by
  refine ⟨?_, ?_, ?_, ?_, ?_, ?_⟩
  · intro c deck hinj ht
    have hne := deck_cards_ne hinj
    simp only [ChancyHistory.util_if_terminal, ht]
    by_cases hlt :
        (get_player_card (other_player c.player_to_move) deck).rank <
          (get_player_card c.player_to_move deck).rank
    · rw [if_pos ((winning_iff hne c.player_to_move).mpr hlt), if_pos hlt]
    · rw [if_neg (fun hw => hlt ((winning_iff hne c.player_to_move).mp hw)),
        if_neg hlt]
  · intro c ht
    refine ⟨if Move.Raise ∈ c.determinize.moves then 2 else 1, ?_, ?_⟩
    · by_cases hr : Move.Raise ∈ c.determinize.moves <;> simp [hr]
    · intro deck
      simp only [ChancyHistory.util_if_terminal, ht]
  · intro c ht
    refine ⟨if Move.Raise ∈ c.determinize.moves then 3 else 2, ?_, ?_⟩
    · by_cases hr : Move.Raise ∈ c.determinize.moves <;> norm_num [hr]
    · intro deck hinj
      have hne := deck_cards_ne hinj
      simp only [ChancyHistory.util_if_terminal, ht]
      by_cases hlt :
          (get_player_card (other_player c.player_to_move) deck).rank <
            (get_player_card c.player_to_move deck).rank
      · rw [if_pos ((winning_iff hne c.player_to_move).mpr hlt), if_pos hlt]
        norm_num
      · rw [if_neg (fun hw => hlt ((winning_iff hne c.player_to_move).mp hw)),
          if_neg hlt]
        by_cases hr : Move.Raise ∈ c.determinize.moves <;> norm_num [hr]
  · norm_num [chCC, ChancyHistory.util_if_terminal, ChancyHistory.determinize,
      History.termination_type, History.len, winning_player, get_player_card,
      deckTA, Card.rank]
    decide
  · norm_num [chCBC, ChancyHistory.util_if_terminal, ChancyHistory.determinize,
      History.termination_type, History.len, winning_player, get_player_card,
      deckTA, Card.rank]
    decide
  · intro deck
    norm_num [chBF, ChancyHistory.util_if_terminal, ChancyHistory.determinize,
      History.termination_type, History.len]
    simp

/-- Closed instance of the C2 theorem at the double-check history with the
player to move holding the losing card. -/
theorem util_if_terminal_payoffs_witness :
    chCC.util_if_terminal deckTA = some (some
      (if (get_player_card (other_player chCC.player_to_move) deckTA).rank <
          (get_player_card chCC.player_to_move deckTA).rank
       then 1 else -1)) :=
  util_if_terminal_payoffs.1 chCC deckTA (by decide) (by decide)

/-- C10: with a Raise in the move sequence a fold pays exactly 2 and a
showdown exactly plus or minus 3 (positive exactly when the player to move
holds the higher card); without a Raise the magnitudes are 1 and 2. -/
theorem util_if_terminal_raise_scaling :
    ∀ (c : ChancyHistory) (deck : Deck), Function.Injective deck →
      (Move.Raise ∈ c.determinize.moves →
        (c.determinize.termination_type = some HistState.Fold →
          c.util_if_terminal deck = some (some 2)) ∧
        (c.determinize.termination_type = some HistState.Showdown →
          c.util_if_terminal deck = some (some
            (if (get_player_card (other_player c.player_to_move) deck).rank <
                (get_player_card c.player_to_move deck).rank
             then 3 else -3)))) ∧
      (Move.Raise ∉ c.determinize.moves →
        (c.determinize.termination_type = some HistState.Fold →
          c.util_if_terminal deck = some (some 1)) ∧
        (c.determinize.termination_type = some HistState.Showdown →
          c.util_if_terminal deck = some (some
            (if (get_player_card (other_player c.player_to_move) deck).rank <
                (get_player_card c.player_to_move deck).rank
             then 2 else -2)))) := by
  intro c deck hinj
  have hne := deck_cards_ne hinj
  constructor
  · intro hr
    constructor
    · intro ht
      simp only [ChancyHistory.util_if_terminal, ht, hr, if_pos]
    · intro ht
      simp only [ChancyHistory.util_if_terminal, ht, hr, if_pos]
      by_cases hlt :
          (get_player_card (other_player c.player_to_move) deck).rank <
            (get_player_card c.player_to_move deck).rank
      · rw [if_pos ((winning_iff hne c.player_to_move).mpr hlt), if_pos hlt]
        norm_num
      · rw [if_neg (fun hw => hlt ((winning_iff hne c.player_to_move).mp hw)),
          if_neg hlt]
        norm_num
  · intro hr
    constructor
    · intro ht
      simp only [ChancyHistory.util_if_terminal, ht, hr, if_neg]
      simp
    · intro ht
      simp only [ChancyHistory.util_if_terminal, ht, hr, if_neg]
      by_cases hlt :
          (get_player_card (other_player c.player_to_move) deck).rank <
            (get_player_card c.player_to_move deck).rank
      · rw [if_pos ((winning_iff hne c.player_to_move).mpr hlt), if_pos hlt]
        norm_num
      · rw [if_neg (fun hw => hlt ((winning_iff hne c.player_to_move).mp hw)),
          if_neg hlt]
        norm_num

/-- Closed instance of the C10 theorem on [Bet, Raise, Fold]: a fold after
a raise pays exactly 2. -/
theorem util_if_terminal_raise_scaling_witness :
    chBRF.util_if_terminal deckTA = some (some 2) :=
  ((util_if_terminal_raise_scaling chBRF deckTA (by decide)).1
    (by decide)).1 (by decide)

theorem foldl_insert_const (l : List Move) (f : Move → Option ℚ) (v : ℚ)
    (x : Move) :
    (l.foldl (fun map m => insertM map m v) f) x =
      if x ∈ l then some v else f x := by
  induction l generalizing f with
  | nil => simp
  | cons a rest ih =>
      simp only [List.foldl_cons, ih (insertM f a v)]
      by_cases hx : x ∈ rest
      · simp [hx]
      · by_cases hxa : x = a <;> simp [hx, hxa, insertM]

theorem usLoop1_fst (ni : NodeInfo) :
    ∀ (l : List Move) (strat : Move → Option ℚ) (ns : ℚ) (x : Move),
      (usLoop1 ni.regret_sum strat ns l).1 x =
        if x ∈ l then some (posRegret ni x) else strat x := by
  intro l
  induction l with
  | nil => intro strat ns x; simp [usLoop1]
  | cons a rest ih =>
      intro strat ns x
      simp only [usLoop1, ih]
      by_cases hx : x ∈ rest
      · simp [hx]
      · by_cases hxa : x = a
        · subst hxa
          simp [hx, insertM, posRegret]
        · simp [hx, hxa, insertM]

theorem usLoop1_snd (ni : NodeInfo) :
    ∀ (l : List Move) (strat : Move → Option ℚ) (ns : ℚ),
      (usLoop1 ni.regret_sum strat ns l).2 = ns + normRegret ni l := by
  intro l
  induction l with
  | nil => intro strat ns; simp [usLoop1, normRegret]
  | cons a rest ih =>
      intro strat ns
      simp only [usLoop1, ih, normRegret, List.map_cons, List.sum_cons]
      unfold posRegret
      ring

theorem usLoop2_spec :
    ∀ (l : List Move) (strat ssum : Move → Option ℚ) (ns w : ℚ) (n : ℕ),
      l.Nodup →
      (0 < ns → ∀ m ∈ l, (strat m).isSome = true) →
      ∃ strat2 ssum2,
        usLoop2 strat ssum ns w n l = some (strat2, ssum2) ∧
        (∀ x, strat2 x =
          if x ∈ l then
            some (if 0 < ns then (strat x).getD 0 / ns else 1 / (n : ℚ))
          else strat x) ∧
        (∀ x, ssum2 x =
          if x ∈ l then
            some ((ssum x).getD 0 +
              w * (if 0 < ns then (strat x).getD 0 / ns else 1 / (n : ℚ)))
          else ssum x) := by
  intro l
  induction l with
  | nil =>
      intro strat ssum ns w n hnd hsome
      exact ⟨strat, ssum, rfl, by simp, by simp⟩
  | cons a rest ih =>
      intro strat ssum ns w n hnd hsome
      have hna : a ∉ rest := (List.nodup_cons.mp hnd).1
      have hndr : rest.Nodup := (List.nodup_cons.mp hnd).2
      by_cases h0 : 0 < ns
      · obtain ⟨va, hva⟩ :=
          Option.isSome_iff_exists.mp (hsome h0 a (List.mem_cons_self a rest))
        have hstep : usLoop2 strat ssum ns w n (a :: rest) =
            usLoop2 (insertM strat a (va / ns))
              (fun x =>
                if x = a then some ((ssum a).getD 0 + w * (va / ns))
                else ssum x) ns w n rest := by
          simp [usLoop2, h0, hva]
        obtain ⟨strat2, ssum2, heq, h2, h3⟩ :=
          ih (insertM strat a (va / ns))
            (fun x =>
              if x = a then some ((ssum a).getD 0 + w * (va / ns))
              else ssum x) ns w n hndr
            (fun _ m hm => by
              by_cases hma : m = a <;> simp [insertM, hma, hsome h0 m
                (List.mem_cons_of_mem a hm)])
        refine ⟨strat2, ssum2, hstep.trans heq, ?_, ?_⟩
        · intro x
          rw [h2 x]
          by_cases hx : x ∈ rest
          · have hxa : x ≠ a := fun hh => hna (hh ▸ hx)
            simp [hx, hxa, insertM]
          · by_cases hxa : x = a
            · subst hxa
              simp [hx, insertM, h0, hva]
            · simp [hx, hxa, insertM]
        · intro x
          rw [h3 x]
          by_cases hx : x ∈ rest
          · have hxa : x ≠ a := fun hh => hna (hh ▸ hx)
            simp [hx, hxa, insertM]
          · by_cases hxa : x = a
            · subst hxa
              simp [hx, h0, hva]
            · simp [hx, hxa]
      · have hstep : usLoop2 strat ssum ns w n (a :: rest) =
            usLoop2 (insertM strat a (1 / (n : ℚ)))
              (fun x =>
                if x = a then some ((ssum a).getD 0 + w * (1 / (n : ℚ)))
                else ssum x) ns w n rest := by
          simp [usLoop2, h0]
        obtain ⟨strat2, ssum2, heq, h2, h3⟩ :=
          ih (insertM strat a (1 / (n : ℚ)))
            (fun x =>
              if x = a then some ((ssum a).getD 0 + w * (1 / (n : ℚ)))
              else ssum x) ns w n hndr (fun hh _ _ => absurd hh h0)
        refine ⟨strat2, ssum2, hstep.trans heq, ?_, ?_⟩
        · intro x
          rw [h2 x]
          by_cases hx : x ∈ rest
          · have hxa : x ≠ a := fun hh => hna (hh ▸ hx)
            simp [hx, hxa, insertM, h0]
          · by_cases hxa : x = a
            · subst hxa
              simp [hx, insertM, h0]
            · simp [hx, hxa, insertM, h0]
        · intro x
          rw [h3 x]
          by_cases hx : x ∈ rest
          · have hxa : x ≠ a := fun hh => hna (hh ▸ hx)
            simp [hx, hxa, h0]
          · by_cases hxa : x = a
            · subst hxa
              simp [hx, h0]
            · simp [hx, hxa, h0]

/-- Full characterization of `NodeInfo::update_strategy` on a duplicate-free
legal-move list: it never panics, leaves the regret table unchanged, writes
the regret-matched strategy for exactly the legal moves, and accumulates
the realization-weighted new strategy into the cumulative-strategy table. -/
theorem update_strategy_spec (ni : NodeInfo) (legal : List Move) (w : ℚ)
    (hnd : legal.Nodup) :
    ∃ ni2, ni.update_strategy legal w = some ni2 ∧
      ni2.regret_sum = ni.regret_sum ∧
      (∀ x, ni2.strategy x =
        if x ∈ legal then some (matchedStrat ni legal x)
        else ni.strategy x) ∧
      (∀ x, ni2.strategy_sum x =
        if x ∈ legal then
          some ((ni.strategy_sum x).getD 0 + w * matchedStrat ni legal x)
        else ni.strategy_sum x) := by
  have hns : (usLoop1 ni.regret_sum ni.strategy 0 legal).2 =
      normRegret ni legal := by
    rw [usLoop1_snd]
    ring
  obtain ⟨strat2, ssum2, heq, h2, h3⟩ :=
    usLoop2_spec legal ((usLoop1 ni.regret_sum ni.strategy 0 legal).1)
      ni.strategy_sum ((usLoop1 ni.regret_sum ni.strategy 0 legal).2) w
      legal.length hnd
      (fun _ m hm => by rw [usLoop1_fst]; simp [hm])
  refine ⟨⟨ni.regret_sum, strat2, ssum2⟩, ?_, rfl, ?_, ?_⟩
  · simp only [NodeInfo.update_strategy]
    rw [heq]
  · intro x
    show strat2 x = _
    rw [h2 x]
    by_cases hx : x ∈ legal
    · rw [if_pos hx, if_pos hx]
      rw [usLoop1_fst, if_pos hx, hns]
      simp [matchedStrat]
    · rw [if_neg hx, if_neg hx, usLoop1_fst, if_neg hx]
  · intro x
    show ssum2 x = _
    rw [h3 x]
    by_cases hx : x ∈ legal
    · rw [if_pos hx, if_pos hx]
      rw [usLoop1_fst, if_pos hx, hns]
      simp [matchedStrat]
    · rw [if_neg hx, if_neg hx]

/-- A node over [Check, Bet] with cumulative regrets Check: 3, Bet: -1. -/
def niA : NodeInfo :=
  { regret_sum := fun m =>
      if m = Move.Check then some 3
      else if m = Move.Bet then some (-1) else none
    strategy := new_move_to_float_map_probs [Move.Check, Move.Bet]
    strategy_sum := new_move_to_float_map_zeros [Move.Check, Move.Bet] }

/-- A fresh node over [Check, Bet] (all cumulative regrets zero). -/
def niB : NodeInfo := NodeInfo.new [Move.Check, Move.Bet]

/-- C1: `update_strategy` implements regret matching — each legal move gets
its positive regret part (`posRegret`) divided by the sum of positive parts
(`normRegret`) when that sum is positive, and the uniform probability
otherwise (`matchedStrat`) — and in the same call adds
`realization_weight * new_strategy[m]` to the cumulative-strategy entry of
every legal move; with regrets {Check: 3, Bet: -1} the new strategy is
{1, 0}, and with {0, 0} it is {1/2, 1/2}. -/
theorem regret_matching_update_strategy :
    (∀ (ni : NodeInfo) (legal_moves : List Move) (w : ℚ),
      legal_moves ≠ [] → legal_moves.Nodup →
      ∃ ni2, ni.update_strategy legal_moves w = some ni2 ∧
        (∀ m ∈ legal_moves,
          ni2.strategy m = some (matchedStrat ni legal_moves m)) ∧
        (∀ m ∈ legal_moves,
          ni2.strategy_sum m = some ((ni.strategy_sum m).getD 0 +
            w * matchedStrat ni legal_moves m))) ∧
    (Option.map (fun ni2 => (ni2.strategy Move.Check, ni2.strategy Move.Bet))
      (niA.update_strategy [Move.Check, Move.Bet] 1) =
      some (some 1, some 0)) ∧
    (Option.map (fun ni2 => (ni2.strategy Move.Check, ni2.strategy Move.Bet))
      (niB.update_strategy [Move.Check, Move.Bet] 1) =
      some (some (1/2), some (1/2))) := by
  refine ⟨?_, ?_, ?_⟩
  · intro ni legal w hne hnd
    obtain ⟨ni2, heq, hrs, hstrat, hssum⟩ := update_strategy_spec ni legal w hnd
    refine ⟨ni2, heq, ?_, ?_⟩
    · intro m hm
      rw [hstrat m, if_pos hm]
    · intro m hm
      rw [hssum m, if_pos hm]
  · obtain ⟨ni2, heq, hrs, hstrat, hssum⟩ :=
      update_strategy_spec niA [Move.Check, Move.Bet] 1 (by decide)
    rw [heq, Option.map_some']
    rw [show ni2.strategy Move.Check =
        some (matchedStrat niA [Move.Check, Move.Bet] Move.Check) from by
      rw [hstrat Move.Check]; simp]
    rw [show ni2.strategy Move.Bet =
        some (matchedStrat niA [Move.Check, Move.Bet] Move.Bet) from by
      rw [hstrat Move.Bet]; simp]
    norm_num [matchedStrat, normRegret, posRegret, niA,
      (by decide : ¬ (Move.Bet = Move.Check)),
      (by decide : ¬ (Move.Check = Move.Bet))]
  · obtain ⟨ni2, heq, hrs, hstrat, hssum⟩ :=
      update_strategy_spec niB [Move.Check, Move.Bet] 1 (by decide)
    rw [heq, Option.map_some']
    rw [show ni2.strategy Move.Check =
        some (matchedStrat niB [Move.Check, Move.Bet] Move.Check) from by
      rw [hstrat Move.Check]; simp]
    rw [show ni2.strategy Move.Bet =
        some (matchedStrat niB [Move.Check, Move.Bet] Move.Bet) from by
      rw [hstrat Move.Bet]; simp]
    norm_num [matchedStrat, normRegret, posRegret, niB, NodeInfo.new,
      new_move_to_float_map_zeros, insertM,
      (by decide : ¬ (Move.Bet = Move.Check)),
      (by decide : ¬ (Move.Check = Move.Bet))]

/-- Closed instance of the C1 theorem: updating the fresh [Check, Bet] node
never panics and writes the regret-matched strategy for Check. -/
theorem regret_matching_update_strategy_witness :
    ∃ ni2, niB.update_strategy [Move.Check, Move.Bet] 1 = some ni2 ∧
      ni2.strategy Move.Check =
        some (matchedStrat niB [Move.Check, Move.Bet] Move.Check) := by
  obtain ⟨ni2, heq, hstrat, hssum⟩ :=
    regret_matching_update_strategy.1 niB [Move.Check, Move.Bet] 1
      (by decide) (by decide)
  exact ⟨ni2, heq, hstrat Move.Check (by decide)⟩

theorem sum_map_div (l : List Move) (f : Move → ℚ) (d : ℚ) :
    (l.map (fun m => f m / d)).sum = (l.map f).sum / d := by
  induction l with
  | nil => simp
  | cons a rest ih => simp [ih, add_div]

theorem sum_map_const_inv (l : List Move) (n : ℕ) :
    (l.map (fun _ => 1 / (n : ℚ))).sum = (l.length : ℚ) / n := by
  induction l with
  | nil => simp
  | cons a rest ih =>
      simp only [List.map_cons, List.sum_cons, List.length_cons, ih]
      push_cast
      ring

theorem new_strategy_eq (legal : List Move) (x : Move) :
    (NodeInfo.new legal).strategy x =
      if x ∈ legal then some (1 / (legal.length : ℚ)) else none := by
  simp only [NodeInfo.new, new_move_to_float_map_probs]
  exact foldl_insert_const legal (fun _ => none) _ x

theorem matchedStrat_nonneg (ni : NodeInfo) (legal : List Move) (m : Move) :
    0 ≤ matchedStrat ni legal m := by
  unfold matchedStrat
  by_cases h0 : 0 < normRegret ni legal
  · rw [if_pos h0]
    apply div_nonneg _ (le_of_lt h0)
    unfold posRegret
    by_cases hr : 0 < (ni.regret_sum m).getD 0
    · rw [if_pos hr]
      exact le_of_lt hr
    · rw [if_neg hr]
  · rw [if_neg h0]
    exact div_nonneg zero_le_one (Nat.cast_nonneg _)

theorem matchedStrat_sum (ni : NodeInfo) (legal : List Move)
    (hne : legal ≠ []) :
    (legal.map (matchedStrat ni legal)).sum = 1 := by
  have hlen : (legal.length : ℚ) ≠ 0 := by
    have : legal.length ≠ 0 := fun hh => hne (List.length_eq_zero.mp hh)
    exact_mod_cast this
  by_cases h0 : 0 < normRegret ni legal
  · have hmap : legal.map (matchedStrat ni legal) =
        legal.map (fun m => posRegret ni m / normRegret ni legal) := by
      apply List.map_congr_left
      intro m _
      simp [matchedStrat, h0]
    rw [hmap, sum_map_div]
    exact div_self (ne_of_gt h0)
  · have hmap : legal.map (matchedStrat ni legal) =
        legal.map (fun _ => 1 / (legal.length : ℚ)) := by
      apply List.map_congr_left
      intro m _
      simp [matchedStrat, h0]
    rw [hmap, sum_map_const_inv]
    exact div_self hlen

theorem new_strategy_dist (legal : List Move) (hne : legal ≠ []) :
    IsDistOver (NodeInfo.new legal).strategy legal := by
  have hlen : (legal.length : ℚ) ≠ 0 := by
    have : legal.length ≠ 0 := fun hh => hne (List.length_eq_zero.mp hh)
    exact_mod_cast this
  refine ⟨?_, ?_, ?_⟩
  · intro m
    rw [new_strategy_eq]
    by_cases hm : m ∈ legal <;> simp [hm]
  · intro m hm
    rw [new_strategy_eq, if_pos hm]
    simp only [Option.getD_some]
    exact div_nonneg zero_le_one (Nat.cast_nonneg _)
  · have hmap : legal.map (fun m => ((NodeInfo.new legal).strategy m).getD 0) =
        legal.map (fun _ => 1 / (legal.length : ℚ)) := by
      apply List.map_congr_left
      intro m hm
      rw [new_strategy_eq, if_pos hm]
      simp
    rw [hmap, sum_map_const_inv]
    exact div_self hlen

theorem update_regret_strategy_eq {ni : NodeInfo} {m : Move} {r : ℚ}
    {ni2 : NodeInfo} (h : ni.update_regret m r = some ni2) :
    ni2.strategy = ni.strategy := by
  unfold NodeInfo.update_regret at h
  split at h
  · exact Option.noConfusion h
  · injection h with h2
    rw [← h2]

theorem update_strategy_dist {ni : NodeInfo} {legal : List Move} {w : ℚ}
    {ni2 : NodeInfo} (hne : legal ≠ []) (hnd : legal.Nodup)
    (hd : IsDistOver ni.strategy legal)
    (h : ni.update_strategy legal w = some ni2) :
    IsDistOver ni2.strategy legal := by
  obtain ⟨ni3, heq, hrs, hstrat, hssum⟩ := update_strategy_spec ni legal w hnd
  rw [heq] at h
  injection h with h2
  subst h2
  refine ⟨?_, ?_, ?_⟩
  · intro m
    rw [hstrat m]
    by_cases hm : m ∈ legal
    · simp [hm]
    · rw [if_neg hm]
      exact hd.1 m
  · intro m hm
    rw [hstrat m, if_pos hm]
    simp only [Option.getD_some]
    exact matchedStrat_nonneg ni legal m
  · have hmap : legal.map (fun m => (ni3.strategy m).getD 0) =
        legal.map (matchedStrat ni legal) := by
      apply List.map_congr_left
      intro m hm
      rw [hstrat m, if_pos hm]
      simp
    rw [hmap]
    exact matchedStrat_sum ni legal hne

theorem applyOps_dist {legal : List Move} (hne : legal ≠ [])
    (hnd : legal.Nodup) :
    ∀ (ops : List NodeOp) (ni ni2 : NodeInfo),
      IsDistOver ni.strategy legal →
      applyOps legal ni ops = some ni2 →
      IsDistOver ni2.strategy legal := by
  intro ops
  induction ops with
  | nil =>
      intro ni ni2 hd h
      injection h with h2
      rw [← h2]
      exact hd
  | cons op rest ih =>
      intro ni ni2 hd h
      simp only [applyOps] at h
      cases hop : applyOp legal ni op with
      | none => rw [hop] at h; exact Option.noConfusion h
      | some ni3 =>
          rw [hop] at h
          refine ih ni3 ni2 ?_ h
          cases op with
          | reg m r =>
              simp only [applyOp] at hop
              rw [update_regret_strategy_eq hop]
              exact hd
          | strat w =>
              simp only [applyOp] at hop
              exact update_strategy_dist hne hnd hd hop

/-- C9: a fresh node's current strategy is the uniform distribution over
exactly the legal moves, and after any sequence of `update_regret` and
`update_strategy` calls (with the same legal-move list) the current
strategy remains a probability distribution over exactly the legal moves. -/
theorem strategy_is_distribution_invariant :
    ∀ legal_moves : List Move, legal_moves ≠ [] → legal_moves.Nodup →
      ((∀ m ∈ legal_moves, (NodeInfo.new legal_moves).strategy m =
          some (1 / (legal_moves.length : ℚ))) ∧
        IsDistOver (NodeInfo.new legal_moves).strategy legal_moves) ∧
      ∀ (ops : List NodeOp) (ni2 : NodeInfo),
        applyOps legal_moves (NodeInfo.new legal_moves) ops = some ni2 →
        IsDistOver ni2.strategy legal_moves := by
  intro legal hne hnd
  refine ⟨⟨?_, new_strategy_dist legal hne⟩, ?_⟩
  · intro m hm
    rw [new_strategy_eq, if_pos hm]
  · intro ops ni2 h
    exact applyOps_dist hne hnd ops (NodeInfo.new legal) ni2
      (new_strategy_dist legal hne) h

/-- Closed instance of the C9 theorem over the legal moves [Check, Bet]. -/
theorem strategy_is_distribution_invariant_witness :
    IsDistOver (NodeInfo.new [Move.Check, Move.Bet]).strategy
      [Move.Check, Move.Bet] :=
  ((strategy_is_distribution_invariant [Move.Check, Move.Bet]
    (by decide) (by decide)).1).2
